import Mathlib

/-!
Shallow embedding of the TinyFunctional library (TinyFunctional.hpp /
TinyFunctionalTypes.hpp) and proofs about its specified behaviour.

Conventions of the embedding:
* machine state is passed explicitly; member functions become functions
  taking the object and returning the result (and the new object where the
  member mutates);
* code that throws is modelled with `Except BadAccess`;
* the raw `union { nullvalue_t null; T value; }` slot together with its
  `has_value` flag is modelled as an `Option T` (the source invariant is
  that a `T` is live in the slot iff the flag is set, which is exactly the
  information content of `Option T`);
* value-category overload families (`&`, `const&`, `&&`, `const&&`) that the
  source documents as semantically identical are modelled once.
-/

/-- Base error type (`class Error` in TinyFunctionalTypes.hpp): carries an
optional message string, defaulting to the empty string. -/
structure Error where
  m_what : String := ""
deriving DecidableEq

/-- `class BadAccess : Error` — the error thrown by checked accessors. -/
structure BadAccess extends Error
deriving DecidableEq

/-- `Storage<T>`: a single-value slot, a `union {nullvalue_t null; T value}`
plus a `bool has_value` flag. The slot holds a live `T` exactly when the
flag is set, so the pair is modelled as one `Option T`. -/
structure Storage (T : Type) where
  val : Option T
deriving DecidableEq

/-- `Storage::reset()`: destroys the occupant (if any) and clears the flag. -/
def Storage.reset (_s : Storage T) : Storage T := ⟨none⟩

/-- `class Optional<T>` from TinyFunctionalTypes.hpp (the copy in
TinyFunctional.hpp is behaviourally identical): owns one `Storage<T>`. -/
structure Optional (T : Type) where
  m_storage : Storage T
deriving DecidableEq

/-- Default constructor `Optional()`: empty storage, disengaged. -/
def Optional.empty : Optional T := ⟨⟨none⟩⟩

/-- Sentinel constructor `Optional(nullvalue_t)`: also disengaged. -/
def Optional.ofNullvalue : Optional T := ⟨⟨none⟩⟩

/-- Engaged constructor `Optional(U&&)` / `Optional(const U&)`: storage is
constructed holding the value, flag set. -/
def Optional.ofValue (u : T) : Optional T := ⟨⟨some u⟩⟩

/-- `Optional::has_value()`: reads the storage flag. -/
def Optional.has_value (o : Optional T) : Bool := o.m_storage.val.isSome

/-- `Optional::reset()`: delegates to `Storage::reset`. -/
def Optional.reset (o : Optional T) : Optional T := ⟨o.m_storage.reset⟩

/-- `Optional::get_value()` (all four value-category overloads share this
logic): `if (!has_value()) throw BadAccess(); return m_storage.value;`. -/
def Optional.get_value (o : Optional T) : Except BadAccess T :=
  if h : o.has_value then .ok (o.m_storage.val.get h) else .error {}

/-- Value assignment `operator=(T&&)` / `operator=(const T&)`:
`reset(); m_storage.value = rhs; m_storage.has_value = true;`. -/
def Optional.assign_value (o : Optional T) (rhs : T) : Optional T :=
  ⟨{ o.m_storage.reset with val := some rhs }⟩

/-- Converting constructor `Optional(const Optional<U>&)` (and the `&&`
overload, whose body is identical): `reset(); *this = opt.get_value();`.
`get_value()` on the source is called unconditionally, so a disengaged
source makes the constructor throw `BadAccess`; an engaged source's value
is converted (here `conv : U → T`) and assigned. -/
def Optional.ofOptional (conv : U → T) (opt : Optional U) : Except BadAccess (Optional T) :=
  (opt.get_value).map fun u => (Optional.empty.reset).assign_value (conv u)

/-- Assignment `operator=(const Optional<U>&)` (and the `&&` overload):
`reset(); if (rhs.has_value()) m_storage = rhs.m_storage;`. The
cross-storage copy only instantiates for `U = T`, which is the case
modelled here. -/
def Optional.assign_optional (o : Optional T) (rhs : Optional T) : Optional T :=
  if rhs.has_value then { o.reset with m_storage := rhs.m_storage } else o.reset

/-- `Optional::and_then(F&&)` (all four value-category overloads share this
logic): `bool(*this) ? std::invoke(f, **this) : R{}` where `R` is `f`'s
result type; for an Optional-returning `f` the default-constructed `R{}`
is the disengaged `Optional`. -/
def Optional.and_then (o : Optional T) (f : T → Optional S) : Optional S :=
  if h : o.has_value then f (o.m_storage.val.get h) else Optional.empty

/-- `class OneOf<A,B>`: a two-alternative tagged union. The discriminant
`m_is_value1` and the shared byte buffer are together modelled as a sum:
constructor `OneOf(A&&)` sets the discriminant and placement-constructs the
`A`; `OneOf(B&&)` the `B`. There is no default state and no mutator. -/
inductive OneOf (A B : Type) where
  | value1 : A → OneOf A B
  | value2 : B → OneOf A B
deriving DecidableEq

/-- `OneOf::is_value1()`: reads the discriminant. -/
def OneOf.is_value1 : OneOf A B → Bool
  | .value1 _ => true
  | .value2 _ => false

/-- `OneOf::is_value2()`: `return !m_is_value1;`. -/
def OneOf.is_value2 (o : OneOf A B) : Bool := !o.is_value1

/-- `OneOf::get_value1()`: `if (!m_is_value1) throw bad_access();` then
reinterprets the buffer as an `A`. -/
def OneOf.get_value1 : OneOf A B → Except BadAccess A
  | .value1 a => .ok a
  | .value2 _ => .error {}

/-- `OneOf::get_value2()`: `if (m_is_value1) throw bad_access();` then
reinterprets the buffer as a `B`. -/
def OneOf.get_value2 : OneOf A B → Except BadAccess B
  | .value1 _ => .error {}
  | .value2 b => .ok b

/-- `class Lazy<T>`: a deferred-computation cell. The constructor packs the
callable and its arguments into the zero-argument closure `f` (modelled
`Unit → T`) without invoking it; the `evaluated` flag and the raw result
buffer `b` (live iff `evaluated`, the invariant the destructor relies on)
are together modelled as `state : Option T` (`none` = unevaluated). -/
structure Lazy (T : Type) where
  f : Unit → T
  state : Option T

/-- The `Lazy(F&&, As&&...)` constructor: stores the thunk, `evaluated`
starts `false`, the buffer is uninitialized — no invocation of `f`. -/
def Lazy.ofThunk (f : Unit → T) : Lazy T := ⟨f, none⟩

/-- `Lazy::has_evaluated()`: reads the `evaluated` flag. -/
def Lazy.has_evaluated (l : Lazy T) : Bool := l.state.isSome

/-- `Lazy::has_value()`: constant `true`. -/
def Lazy.has_value (_l : Lazy T) : Bool := true

/-- `Lazy::get()`: `if (!evaluated) { new(&b) T(f()); evaluated = true; }
return (T&)b;`. Returns the value, the updated cell, and the number of
invocations of the thunk performed by this call (`1` exactly when the
un-evaluated branch ran, else `0`). -/
def Lazy.get (l : Lazy T) : T × Lazy T × Nat :=
  match l.state with
  | none => ((l.f ()), ⟨l.f, some (l.f ())⟩, 1)
  | some v => (v, l, 0)

/-- `n` successive `get()` calls on a cell: the list of returned values,
the final cell, and the total number of thunk invocations. -/
def Lazy.getN (l : Lazy T) : Nat → List T × Lazy T × Nat
  | 0 => ([], l, 0)
  | n + 1 =>
    let r := l.get
    let rs := r.2.1.getN n
    (r.1 :: rs.1, rs.2.1, r.2.2 + rs.2.2)

/-- `f::fold_iterator(F f, V init, It begin, It end)` over a random-access
range, with iterators modelled as indices `b`, `e` into the list `l`:
`if (begin >= end) return init; return fold_iterator(f, f(init, *begin),
begin+1, end);`. -/
def fold_iterator [Inhabited α] (f : V → α → V) (init : V) (l : List α) (b e : Nat) : V :=
  if b ≥ e then init
  else fold_iterator f (f init (l.getD b default)) l (b + 1) e
termination_by e - b
decreasing_by omega

/-- Number of recursive self-calls `fold_iterator` performs for the index
pair `(b, e)` (the recursion advances `b` by one, leaving `e` fixed, until
`b ≥ e`). -/
def fold_steps (b e : Nat) : Nat :=
  if b ≥ e then 0 else fold_steps (b + 1) e + 1
termination_by e - b
decreasing_by omega

/-- `f::foldl(F f, V init, Arr arr)`:
`if (arr.begin() >= arr.end()) return init;
return fold_iterator(f, f(init, *arr.begin()), arr.begin()+1, arr.end());`. -/
def foldl [Inhabited α] (f : V → α → V) (init : V) (arr : List α) : V :=
  if 0 ≥ arr.length then init
  else fold_iterator f (f init (arr.getD 0 default)) arr 1 arr.length

/-- `f::foldr(F f, V init, Arr arr)`: same body over the reverse iterators
`rbegin`/`rend`, i.e. over the reversed sequence. -/
def foldr [Inhabited α] (f : V → α → V) (init : V) (arr : List α) : V :=
  if 0 ≥ arr.reverse.length then init
  else fold_iterator f (f init (arr.reverse.getD 0 default)) arr.reverse 1 arr.reverse.length

/-- The active `f::compose(F&& f, Fs&&... fs)` returns a lambda computing
`compose(fs...)(std::invoke(f, xs...))`: the FIRST function of the chain is
applied first and the rest passed on recursively. The recursion has no
zero-function base case — the inner `compose()` call has no viable
overload (and `std::forward(f)` without an explicit template argument is
itself ill-formed) — so a chain of length `n` performs `n` applications
left-to-right and then reaches the missing case, modelled as `none`. -/
def composeRun : List (α → α) → α → Option α
  | [], _ => none
  | g :: gs, x => composeRun gs (g x)

/-- Variadic applicative `f::fmap(F&& f, TOpts&&... opts)` over optionals,
modelled with the argument pack as a list:
`if ((... && opts)) return std::invoke(f, *opts...); return {};` — the
values are passed to `f` only when the conjunction of engagement checks
holds, else the result is the empty optional. -/
def fmapOptionals (f : List α → β) (opts : List (Option α)) : Option β :=
  if opts.all Option.isSome then some (f (opts.filterMap id)) else none

/-- The same applicative `fmap` instantiated at an argument pack of two
optionals, keeping the pack heterogeneous: the fold `(... && opts)` becomes
the conjunction of the two engagement checks. -/
def fmapOptionals2 (f : α → β → γ) (o1 : Option α) (o2 : Option β) : Option γ :=
  if h : o1.isSome ∧ o2.isSome then some (f (o1.get h.1) (o2.get h.2)) else none

/-- Reference sequencing of a list of optionals, following the spec's
words: the list of contained values when every argument is engaged,
disengaged otherwise. Used to relate `fmapOptionals` to the spec. -/
def sequenceOptions : List (Option α) → Option (List α)
  | [] => some []
  | none :: _ => none
  | some a :: os => (sequenceOptions os).map (a :: ·)

/-- `class LazyTransformation<A, F>`: binds the source collection `in` and
the transformer `f`; construction does nothing else. (`in` is a Lean
keyword, so the field is named `inp`.) -/
structure LazyTransformation (α β : Type) where
  inp : List α
  f : α → β

/-- Collection overload `f::fmap(F&& f, C const& in)`:
`return LazyTransformation<C, F>(in, f);`. -/
def fmapCollection (f : α → β) (c : List α) : LazyTransformation α β :=
  ⟨c, f⟩

/-- `LazyTransformation::get<B>()`: `B out; for_each([&](auto e)
{out.push_back(f(e));}, in); return out;` — a single forward pass with the
growing output threaded through. -/
def LazyTransformation.get (lt : LazyTransformation α β) : List β :=
  lt.inp.foldl (fun out e => out ++ [lt.f e]) []

/-- `LazyTransformation::get` instrumented with a trace: alongside the
output, the list of source elements `f` was applied to, in application
order. -/
def LazyTransformation.getTraced (lt : LazyTransformation α β) : List β × List α :=
  lt.inp.foldl (fun acc e => (acc.1 ++ [lt.f e], acc.2 ++ [e])) ([], [])

/-! Helper lemmas (shared infrastructure, not claim theorems). -/

/-- Closed form of `fold_iterator`, by induction on the iterator distance
`e - b`: the recursion folds the slice `[b, e)` of `l` left-to-right. -/
theorem fold_iterator_eq [Inhabited α] (f : V → α → V) (l : List α)
    (e : Nat) (he : e ≤ l.length) :
    ∀ n b init, e - b = n →
      fold_iterator f init l b e = ((l.drop b).take (e - b)).foldl f init := by
  intro n
  induction n with
  | zero =>
    intro b init hn
    rw [fold_iterator, if_pos (by omega), hn]
    simp
  | succ m ih =>
    intro b init hn
    have hb : b < l.length := by omega
    rw [fold_iterator, if_neg (by omega), ih (b + 1) (f init (l.getD b default)) (by omega)]
    rw [List.drop_eq_getElem_cons hb, hn]
    have h1 : e - (b + 1) = m := by omega
    rw [h1, List.take_succ_cons, List.foldl_cons, List.getD_eq_getElem l default hb]

/-- `fold_iterator` over the whole slice `[b, e)`, usable directly. -/
theorem fold_iterator_closed_form [Inhabited α] (f : V → α → V) (init : V)
    (l : List α) (b e : Nat) (he : e ≤ l.length) :
    fold_iterator f init l b e = ((l.drop b).take (e - b)).foldl f init :=
  fold_iterator_eq f l e he (e - b) b init rfl

/-- The library's `foldl` agrees with the standard left fold. -/
theorem foldl_spec [Inhabited α] (f : V → α → V) (init : V) (l : List α) :
    foldl f init l = List.foldl f init l := by
  cases l with
  | nil => rw [foldl]; simp
  | cons x xs =>
    rw [foldl, if_neg (by simp)]
    rw [fold_iterator_closed_form f _ _ 1 (x :: xs).length (le_refl _)]
    simp [List.foldl_cons]

/-- The library's `foldr` is `foldl` over the reversed collection: the two
bodies are syntactically identical once `arr.reverse` is named. -/
theorem foldr_spec [Inhabited α] (f : V → α → V) (init : V) (l : List α) :
    foldr f init l = List.foldl f init l.reverse := by
  rw [show foldr f init l = foldl f init l.reverse from rfl, foldl_spec]

/-- The recursion depth of `fold_iterator` is exactly the iterator
distance. -/
theorem fold_steps_eq : ∀ n b e, e - b = n → fold_steps b e = e - b := by
  intro n
  induction n with
  | zero =>
    intro b e hn
    rw [fold_steps, if_pos (by omega)]
    omega
  | succ m ih =>
    intro b e hn
    rw [fold_steps, if_neg (by omega), ih (b + 1) e (by omega)]
    omega

/-- `fmapOptionals` agrees with the spec-level sequencing of the argument
pack, for every transformer `f`. -/
theorem fmapOptionals_eq_sequence (f : List α → β) (opts : List (Option α)) :
    fmapOptionals f opts = (sequenceOptions opts).map f := by
  induction opts generalizing f with
  | nil => rfl
  | cons o os ih =>
    cases o with
    | none => simp [fmapOptionals, sequenceOptions]
    | some a =>
      have hstep : fmapOptionals f (some a :: os) = fmapOptionals (fun vs => f (a :: vs)) os := by
        simp [fmapOptionals, List.filterMap_cons]
      rw [hstep, ih]
      cases hs : sequenceOptions os <;> simp [sequenceOptions, hs]

/-- If any argument of the pack is disengaged the sequencing is
disengaged. -/
theorem sequenceOptions_eq_none_of_mem (opts : List (Option α)) (h : none ∈ opts) :
    sequenceOptions opts = none := by
  induction opts with
  | nil => cases h
  | cons o os ih =>
    cases o with
    | none => rfl
    | some a =>
      have h2 : none ∈ os := by
        rcases List.mem_cons.mp h with h1 | h1
        · exact absurd h1 (by simp)
        · exact h1
      simp [sequenceOptions, ih h2]

/-- `getN` on an already-evaluated cell: every call returns the cached
value, the cell is unchanged and the thunk is never invoked. -/
theorem Lazy.getN_evaluated (f : Unit → T) (v : T) :
    ∀ n, (Lazy.mk f (some v)).getN n = (List.replicate n v, Lazy.mk f (some v), 0) := by
  intro n
  induction n with
  | zero => rfl
  | succ m ih => simp [Lazy.getN, Lazy.get, ih, List.replicate_succ]

/-- Threading an accumulator through the push-back fold appends the mapped
list. -/
theorem foldl_push_back (f : α → β) :
    ∀ (l : List α) (acc : List β),
      l.foldl (fun out e => out ++ [f e]) acc = acc ++ l.map f := by
  intro l
  induction l with
  | nil => simp
  | cons x xs ih => intro acc; simp [ih]

/-- Same, for the trace-instrumented fold. -/
theorem foldl_push_back_traced (f : α → β) :
    ∀ (l : List α) (acc : List β × List α),
      l.foldl (fun acc e => (acc.1 ++ [f e], acc.2 ++ [e])) acc
        = (acc.1 ++ l.map f, acc.2 ++ l) := by
  intro l
  induction l with
  | nil => simp
  | cons x xs ih => intro acc; simp [ih]

/-! Claim theorems. -/

/-- Claim C1: the claim says construction and assignment from a disengaged
`Optional<U>` both yield a disengaged `Optional` and neither signals an
error. The converting constructor calls `opt.get_value()` unconditionally,
so it throws `BadAccess` on a disengaged source (first conjunct,
contradicting the claim); assignment checks `has_value()` first and behaves
as claimed (third and fourth conjuncts), as does construction from an
engaged source (second conjunct). -/
theorem optional_construct_from_disengaged_diverges :
    Optional.ofOptional (id : Nat → Nat) Optional.ofNullvalue = .error {} ∧
    Optional.ofOptional (id : Nat → Nat) (Optional.ofValue 7) = .ok (Optional.ofValue 7) ∧
    Optional.assign_optional (Optional.ofValue (5 : Nat)) Optional.ofNullvalue
      = Optional.ofNullvalue ∧
    Optional.assign_optional (Optional.empty : Optional Nat) (Optional.ofValue 7)
      = Optional.ofValue 7 :=
  ⟨rfl, rfl, rfl, rfl⟩

/-- Claim C2: the claim says `compose(f,g)(x) == f(g(x))` and
`compose(f,g,h)(x) == f(g(h(x)))`. The active `compose` applies the chain
leftmost-first and recurses into a zero-function `compose()` call that has
no overload (`none` in the model), so neither a 2- nor a 3-chain ever
produces the claimed value. -/
theorem compose_chain_diverges :
    composeRun [fun n => n + 1, fun n => n * 2] (5 : Nat) = none ∧
    composeRun [fun n => n + 1, fun n => n * 2, fun n => n + 3] (5 : Nat) = none :=
  ⟨rfl, rfl⟩

/-- Claim C3: applicative `fmap` over optionals returns an engaged result
holding `f` of the contained values exactly when every argument is engaged
(first and third conjuncts), and a disengaged result that is independent of
`f` — `f` is never invoked — when any argument is disengaged (second and
fourth conjuncts). -/
theorem fmap_applicative_engaged_iff (f : List α → β) (opts : List (Option α))
    (h2 : γ → δ → β) (a : γ) (b : δ) (o1 : Option γ) (o2 : Option δ) :
    fmapOptionals f opts = (sequenceOptions opts).map f ∧
    (none ∈ opts → ∀ g : List α → β, fmapOptionals g opts = none) ∧
    fmapOptionals2 h2 (some a) (some b) = some (h2 a b) ∧
    ((o1 = none ∨ o2 = none) → ∀ h' : γ → δ → β, fmapOptionals2 h' o1 o2 = none) := by
  refine ⟨fmapOptionals_eq_sequence f opts, ?_, rfl, ?_⟩
  · intro hmem g
    rw [fmapOptionals_eq_sequence g opts, sequenceOptions_eq_none_of_mem opts hmem]
    rfl
  · intro hor h'
    rcases hor with h | h
    · subst h; simp [fmapOptionals2]
    · subst h; simp [fmapOptionals2]

/-- Claim C3 witness: the theorem applied at a pack with a disengaged
member and at a concrete engaged pair. -/
theorem fmap_applicative_engaged_iff_witness :
    fmapOptionals (fun l => l.length) [some (1 : Nat), none] = none ∧
    fmapOptionals2 (· + ·) (some (2 : Nat)) (some (3 : Nat)) = some 5 ∧
    fmapOptionals2 (· + ·) (none : Option Nat) (some (3 : Nat)) = none := by
  have h := fmap_applicative_engaged_iff (fun l : List Nat => l.length)
    [some 1, none] (· + ·) 2 3 (none : Option Nat) (some (3 : Nat))
  exact ⟨h.2.1 (by simp) _, h.2.2.1, h.2.2.2 (Or.inl rfl) _⟩

/-- Claim C4: the checked accessor `get_value` signals `BadAccess` exactly
when the `Optional` is disengaged, returns the contained value when
engaged, and both the default- and the sentinel-constructed `Optional` are
disengaged with checked access signalling. -/
theorem get_value_badaccess_iff (o : Optional T) :
    (o.get_value = .error {} ↔ o.has_value = false) ∧
    (∀ a, o.m_storage.val = some a → o.get_value = .ok a) ∧
    (Optional.empty : Optional T).has_value = false ∧
    (Optional.empty : Optional T).get_value = .error {} ∧
    (Optional.ofNullvalue : Optional T).has_value = false ∧
    (Optional.ofNullvalue : Optional T).get_value = .error {} := by
  obtain ⟨⟨val⟩⟩ := o
  refine ⟨?_, ?_, rfl, rfl, rfl, rfl⟩
  · cases val <;> simp [Optional.get_value, Optional.has_value]
  · intro a ha
    cases val with
    | none => exact Option.noConfusion ha
    | some b =>
      have hba : some b = some a := ha
      obtain rfl := Option.some.inj hba
      simp [Optional.get_value, Optional.has_value]

/-- Claim C4 witness: the theorem applied at an engaged and a disengaged
concrete `Optional`. -/
theorem get_value_badaccess_iff_witness :
    (Optional.ofValue (5 : Nat)).get_value = .ok 5 ∧
    (Optional.empty : Optional Nat).get_value = .error {} := by
  have h := get_value_badaccess_iff (Optional.ofValue (5 : Nat))
  exact ⟨h.2.1 5 rfl, h.2.2.2.1⟩

/-- Claim C5: a freshly constructed `Lazy` has not evaluated and its thunk
has not run; across `n + 1 ≥ 1` calls of `get()` the thunk runs exactly
once, every call returns the same cached result, and the final state is
evaluated; once evaluated, a further `get()` leaves the cell unchanged,
returns the cache and performs no invocation — the evaluated state is
one-way. -/
theorem lazy_evaluates_exactly_once (f : Unit → T) (n : Nat) (v : T) :
    (Lazy.ofThunk f).has_evaluated = false ∧
    ((Lazy.ofThunk f).getN (n + 1)).2.2 = 1 ∧
    ((Lazy.ofThunk f).getN (n + 1)).1 = List.replicate (n + 1) (f ()) ∧
    ((Lazy.ofThunk f).getN (n + 1)).2.1.has_evaluated = true ∧
    (Lazy.mk f (some v)).get = (v, Lazy.mk f (some v), 0) := by
  have key : (Lazy.ofThunk f).getN (n + 1)
      = (f () :: List.replicate n (f ()), Lazy.mk f (some (f ())), 1) := by
    simp [Lazy.getN, Lazy.get, Lazy.ofThunk, Lazy.getN_evaluated]
  refine ⟨rfl, ?_, ?_, ?_, rfl⟩
  · rw [key]
  · rw [key, List.replicate_succ]
  · rw [key]; rfl

/-- Claim C6: a `OneOf` constructed from the first alternative reports
`is_value1`, yields the held value through `get_value1` and signals
`BadAccess` through `get_value2`; symmetrically for the second
alternative; and the two discriminant queries are complementary for every
`OneOf` (and nothing mutates the discriminant). -/
theorem oneof_discriminant_spec (a : A) (b : B) (o : OneOf A B) :
    (OneOf.value1 a : OneOf A B).is_value1 = true ∧
    (OneOf.value1 a : OneOf A B).is_value2 = false ∧
    (OneOf.value1 a : OneOf A B).get_value1 = .ok a ∧
    (OneOf.value1 a : OneOf A B).get_value2 = .error {} ∧
    (OneOf.value2 b : OneOf A B).is_value1 = false ∧
    (OneOf.value2 b : OneOf A B).is_value2 = true ∧
    (OneOf.value2 b : OneOf A B).get_value2 = .ok b ∧
    (OneOf.value2 b : OneOf A B).get_value1 = .error {} ∧
    o.is_value1 = !o.is_value2 := by
  refine ⟨rfl, rfl, rfl, rfl, rfl, rfl, rfl, rfl, ?_⟩
  cases o <;> rfl

/-- Claim C7 counterexample: with the append-to-front accumulator
`fun acc e => e :: acc`, `foldr` over `[1,2,3,4,5]` returns the original
list, not `[5,4,3,2,1]` as the claim states. -/
theorem foldr_push_front_counterexample :
    foldr (fun acc e => e :: acc) ([] : List Nat) [1, 2, 3, 4, 5] = [1, 2, 3, 4, 5] ∧
    ¬ foldr (fun acc e => e :: acc) ([] : List Nat) [1, 2, 3, 4, 5] = [5, 4, 3, 2, 1] := by
  constructor
  · rw [foldr_spec]; rfl
  · rw [foldr_spec]; decide

/-- Claim C7 (amended): `foldl` is the left-to-right accumulation and
returns `init` on the empty collection; `foldr` is that same accumulation
over the reversed collection; `foldl (+) 0 [1,2,3,4,5] = 15`; and `foldr`
with an append-to-back accumulator over `[1,2,3,4,5]` yields
`[5,4,3,2,1]`. -/
theorem fold_accumulation_spec [Inhabited α] (f : V → α → V) (init : V) (l : List α) :
    foldl f init ([] : List α) = init ∧
    foldl f init l = List.foldl f init l ∧
    foldr f init l = List.foldl f init l.reverse ∧
    foldl (· + ·) (0 : Nat) [1, 2, 3, 4, 5] = 15 ∧
    foldr (fun acc e => acc ++ [e]) ([] : List Nat) [1, 2, 3, 4, 5] = [5, 4, 3, 2, 1] := by
  refine ⟨?_, foldl_spec f init l, foldr_spec f init l, ?_, ?_⟩
  · rw [foldl_spec]; rfl
  · rw [foldl_spec]; rfl
  · rw [foldr_spec]; rfl

/-- Claim C8: `and_then` on an engaged `Optional` returns `f` of the
contained value unchanged; on a disengaged one it returns the disengaged
default of the result type and the result is independent of the function —
`f` is never invoked. -/
theorem and_then_spec (o : Optional T) (f : T → Optional S) :
    (∀ a, o.m_storage.val = some a → o.and_then f = f a) ∧
    (o.has_value = false →
      o.and_then f = Optional.empty ∧ (o.and_then f).has_value = false ∧
        ∀ g : T → Optional S, o.and_then g = o.and_then f) := by
  obtain ⟨⟨val⟩⟩ := o
  constructor
  · intro a ha
    cases val with
    | none => exact Option.noConfusion ha
    | some b =>
      have hba : some b = some a := ha
      obtain rfl := Option.some.inj hba
      simp [Optional.and_then, Optional.has_value]
  · intro hnv
    cases val with
    | some b => simp [Optional.has_value] at hnv
    | none => exact ⟨rfl, rfl, fun _ => rfl⟩

/-- Claim C8 witness: the theorem applied at an engaged and at a
disengaged concrete `Optional`. -/
theorem and_then_spec_witness :
    (Optional.ofValue (2 : Nat)).and_then (fun n => Optional.ofValue (n * 3))
      = Optional.ofValue 6 ∧
    (Optional.empty : Optional Nat).and_then (fun n => Optional.ofValue (n * 3))
      = Optional.empty := by
  have h1 := and_then_spec (Optional.ofValue (2 : Nat)) (fun n => Optional.ofValue (n * 3))
  have h2 := and_then_spec (Optional.empty : Optional Nat) (fun n => Optional.ofValue (n * 3))
  exact ⟨h1.1 2 rfl, (h2.2 rfl).1⟩

/-- Claim C9: the collection `fmap` only stores the collection and the
function (first conjunct — no element is processed at construction);
materializing the view applies `f` to each source element exactly once in
source order, appending the results (second and third conjuncts, the trace
being exactly the source); squaring `[1,2,3,4,5]` materializes to
`[1,4,9,16,25]`. -/
theorem fmap_collection_lazy_spec (f : α → β) (c : List α) :
    fmapCollection f c = LazyTransformation.mk c f ∧
    (fmapCollection f c).get = c.map f ∧
    (fmapCollection f c).getTraced = (c.map f, c) ∧
    (fmapCollection (fun n : Nat => n * n) [1, 2, 3, 4, 5]).get = [1, 4, 9, 16, 25] := by
  refine ⟨rfl, ?_, ?_, rfl⟩
  · rw [show (fmapCollection f c).get = c.foldl (fun out e => out ++ [f e]) [] from rfl,
      foldl_push_back]
    simp
  · rw [show (fmapCollection f c).getTraced
        = c.foldl (fun acc e => (acc.1 ++ [f e], acc.2 ++ [e])) ([], []) from rfl,
      foldl_push_back_traced]
    simp

/-- Claim C10: `fold_iterator` terminates on every finite range: the
recursion depth equals the iterator distance `e - b`, the fold has the
closed form over the slice `[b, e)`, and `foldl`/`foldr` are exactly
`fold_iterator` over the full forward and reversed ranges. -/
theorem fold_iterator_terminates [Inhabited α] (f : V → α → V) (init : V)
    (l : List α) (b e : Nat) (he : e ≤ l.length) :
    fold_steps b e = e - b ∧
    fold_iterator f init l b e = ((l.drop b).take (e - b)).foldl f init ∧
    foldl f init l = fold_iterator f init l 0 l.length ∧
    foldr f init l = fold_iterator f init l.reverse 0 l.reverse.length := by
  refine ⟨fold_steps_eq (e - b) b e rfl, fold_iterator_closed_form f init l b e he, ?_, ?_⟩
  · conv_rhs => rw [fold_iterator]
    rfl
  · conv_rhs => rw [fold_iterator]
    rfl

/-- Claim C10 witness: the theorem applied to the range `[0, 3)` of the
concrete list `[1, 2, 3]`. -/
theorem fold_iterator_terminates_witness :
    fold_steps 0 3 = 3 - 0 ∧
    fold_iterator (· + ·) (0 : Nat) [1, 2, 3] 0 3
      = (([1, 2, 3].drop 0).take (3 - 0)).foldl (· + ·) 0 ∧
    foldl (· + ·) (0 : Nat) [1, 2, 3] = fold_iterator (· + ·) 0 [1, 2, 3] 0 [1, 2, 3].length ∧
    foldr (· + ·) (0 : Nat) [1, 2, 3]
      = fold_iterator (· + ·) 0 [1, 2, 3].reverse 0 [1, 2, 3].reverse.length :=
  fold_iterator_terminates (· + ·) 0 [1, 2, 3] 0 3 (by decide)
